import Mathlib

/-!
# usoltsev-dmitry/pipeline: the ring buffer and the stage pipeline of `main.go`

A shallow embedding of `src/main.go`.

* Go `int` values are modelled as `Int`. The only arithmetic the buffer does on
  them is `r.size-1`, `r.pos++`, `i-1`, `i++` and `r.pos+1`; in every state that
  can be reached these stay inside `[-1, size]`, so no 64-bit wrap-around occurs.
* A run-time panic (index out of range, `make` with a negative length, slice
  bounds out of range) is an `Except.error`; every access to the backing array
  is bounds-checked the way the Go runtime does it.
* `r.array` is a Go slice over one backing array that is allocated once by
  `make` and never reallocated (there is no `append`). The field `array` holds
  the current contents of that backing array. The slice `r.array[:r.pos+1]`
  handed out by `Get` is a slice header over the *same* backing array, so it is
  modelled as a header (`GoSlice`) whose elements are read from the backing
  array at the moment of the read.
* The mutex `m` makes the bodies of `Push` and `Get` atomic with respect to
  each other; the buffer model is the sequential semantics of the calls.
  `make([]int, size)` panics for a negative length and for a length above the
  limit of the runtime (`maxSliceLen`); running out of memory below that limit
  is not modelled, so the claims about a buffer assume that the constructor
  returned one.
* A stage is a function that, given the done channel and its input channel,
  returns its output channel; since calling it makes a channel and starts
  goroutines, it also transforms the state `W` those effects act on. `Run` is
  the index loop over `p.stages`.
* The two filter stages are modelled as goroutines that are blocked either at
  their outer `select` (receive) or at their inner `select` (send), connected
  by unbuffered channels: one step of the network is one rendezvous. The
  network model `Config` covers the runs in which the done channel is never
  closed; `Sys` adds the closing of done and the workers returning.
* For cancellation each worker is also modelled on its own, by the cases of
  the `select` it is blocked at (`filterWorker`, `collectorWorker`,
  `flusherWorker`).
-/

deriving instance DecidableEq for Except

namespace Pipeline

/-! ## Run-time faults -/

/-- The ways in which the modelled code can stop abnormally. `fuel` is not a Go
panic: it marks a loop model that ran out of its iteration budget. -/
inductive Fault where
  | indexOutOfRange
  | makeLenOutOfRange
  | sliceBoundsOutOfRange
  | fuel
deriving DecidableEq, Repr

/-- Go `a[i]` as an r-value: panics unless `0 ≤ i < len(a)`. -/
def index (a : List Int) (i : Int) : Except Fault Int :=
  if 0 ≤ i ∧ i < (a.length : Int) then
    match a[i.toNat]? with
    | some x => .ok x
    | none => .error .indexOutOfRange
  else .error .indexOutOfRange

/-- Go `a[i] = v`: panics unless `0 ≤ i < len(a)`. -/
def assign (a : List Int) (i : Int) (v : Int) : Except Fault (List Int) :=
  if 0 ≤ i ∧ i < (a.length : Int) then .ok (a.set i.toNat v)
  else .error .indexOutOfRange

/-! ## RingIntBuffer -/

/-- The struct `RingIntBuffer` (`main.go` 20-25): `array` is the contents of the
backing array of the slice `r.array`, `pos` the current position, `size` the
capacity field. -/
structure RingIntBuffer where
  array : List Int
  pos : Int
  size : Int
deriving DecidableEq, Repr

/-- The largest length `make([]int, n)` accepts on a 64-bit platform: the
runtime panics with `makeslice: len out of range` when `n < 0` or when `8 * n`
exceeds its allocation limit of `2 ^ 48` bytes, so the largest accepted length
is `2 ^ 45`. The limit is a constant of the Go runtime, not of `main.go`. -/
def maxSliceLen : Int := 35184372088832

/-- The constructor `NewRingIntBuffer` (`main.go` 28-30): `make([]int, size)`
panics for a negative `size` and for a `size` above `maxSliceLen`, otherwise
gives `size` zeroes; `pos` starts at `-1`. -/
def NewRingIntBuffer (size : Int) : Except Fault RingIntBuffer :=
  if size < 0 ∨ maxSliceLen < size then .error .makeLenOutOfRange
  else .ok { array := List.replicate size.toNat 0, pos := -1, size := size }

/-- The loop `for i := 1; i <= r.size-1; i++ { r.array[i-1] = r.array[i] }`
(`main.go` 38-40), started at `i`, with an iteration budget. -/
def Push.shift : Nat → Int → Int → List Int → Except Fault (List Int)
  | 0, i, size, a => if i ≤ size - 1 then .error .fuel else .ok a
  | fuel + 1, i, size, a =>
    if i ≤ size - 1 then
      match index a i with
      | .error e => .error e
      | .ok x =>
        match assign a (i - 1) x with
        | .error e => .error e
        | .ok a1 => Push.shift fuel (i + 1) size a1
    else .ok a

/-- The method `RingIntBuffer.Push` (`main.go` 33-46). -/
def Push (r : RingIntBuffer) (v : Int) : Except Fault RingIntBuffer :=
  if r.pos = r.size - 1 then
    match Push.shift r.size.toNat 1 r.size r.array with
    | .error e => .error e
    | .ok a1 =>
      match assign a1 r.pos v with
      | .error e => .error e
      | .ok a2 => .ok { r with array := a2 }
  else
    match assign r.array (r.pos + 1) v with
    | .error e => .error e
    | .ok a1 => .ok { r with pos := r.pos + 1, array := a1 }

/-- A Go slice value as `Get` can return it: `nil`, or a header with base
element 0 of the backing array of the buffer and length `len` (`r.array[:len]`). -/
inductive GoSlice where
  | nil
  | view (len : Nat)
deriving DecidableEq, Repr

/-- Number of elements of a slice value (`len(s)`). -/
def GoSlice.len : GoSlice → Nat
  | .nil => 0
  | .view n => n

/-- The elements a reader of the slice sees when the backing array currently
holds `mem`. -/
def GoSlice.elems : GoSlice → List Int → List Int
  | .nil, _ => []
  | .view n, mem => mem.take n

/-- The method `RingIntBuffer.Get` (`main.go` 49-59): the returned slice and the new state.
The slice expression `r.array[:r.pos+1]` panics unless `r.pos+1 ≤ cap(r.array)`. -/
def Get (r : RingIntBuffer) : Except Fault (GoSlice × RingIntBuffer) :=
  if r.pos < 0 then .ok (.nil, r)
  else if r.pos + 1 ≤ (r.array.length : Int) then
    .ok (.view (r.pos + 1).toNat, { r with pos := -1 })
  else .error .sliceBoundsOutOfRange

/-- One call on the buffer. -/
inductive Call where
  | push (v : Int)
  | get
deriving DecidableEq, Repr

/-- The state after one call (the slice returned by `Get` is dropped). -/
def Call.run (r : RingIntBuffer) : Call → Except Fault RingIntBuffer
  | .push v => Push r v
  | .get =>
    match Get r with
    | .error e => .error e
    | .ok (_, r1) => .ok r1

/-- The state after a sequence of calls, left to right. -/
def calls (r : RingIntBuffer) : List Call → Except Fault RingIntBuffer
  | [] => .ok r
  | c :: cs =>
    match c.run r with
    | .error e => .error e
    | .ok r1 => calls r1 cs

/-- The state reached from `NewRingIntBuffer(N)` by a sequence of calls. -/
def reach (N : Int) (cs : List Call) : Except Fault RingIntBuffer :=
  match NewRingIntBuffer N with
  | .error e => .error e
  | .ok r => calls r cs

/-- The values the buffer currently stores: `array[0..pos]`. -/
def stored (r : RingIntBuffer) : List Int :=
  r.array.take (r.pos + 1).toNat

/-- The last `n` elements of a list, in order (the whole list when it is
shorter). -/
def lastN (n : Nat) (l : List Int) : List Int :=
  l.drop (l.length - n)


/-- The shape of every reachable buffer of capacity `N`. -/
def Inv (N : Int) (r : RingIntBuffer) : Prop :=
  r.size = N ∧ (r.array.length : Int) = N ∧ -1 ≤ r.pos ∧ r.pos ≤ N - 1

/-! ## Stages and the pipeline -/

/-- The type `StageInt` (`main.go` 62): `func(<-chan bool, <-chan int) <-chan int`. `D` is
the type of the done channel, `C` of the integer channels. Calling a stage has
effects (it makes a channel and starts goroutines); `W` is the state those
effects act on. -/
abbrev StageInt (D C W : Type) : Type := D → C → W → C × W

/-- The struct `PipeLineInt` (`main.go` 65-68). -/
structure PipeLineInt (D C W : Type) where
  stages : List (StageInt D C W)
  done : D

/-- The constructor `NewPipelineInt` (`main.go` 71-73); the variadic `stages` is a list. -/
def NewPipelineInt {D C W : Type} (done : D) (stages : List (StageInt D C W)) :
    PipeLineInt D C W :=
  { done := done, stages := stages }

/-- The method `runStageInt` (`main.go` 85-87). -/
def PipeLineInt.runStageInt {D C W : Type} (p : PipeLineInt D C W) (stage : StageInt D C W)
    (sourceChan : C) (w : W) : C × W :=
  stage p.done sourceChan w

/-- The loop `for index := range p.stages { c = p.runStageInt(p.stages[index], c) }`
of `Run` (`main.go` 78-80), from `index` on, with an iteration budget. -/
def PipeLineInt.Run.loop {D C W : Type} (p : PipeLineInt D C W) :
    Nat → Nat → C → W → Except Fault (C × W)
  | 0, index, c, w => if index < p.stages.length then .error .fuel else .ok (c, w)
  | fuel + 1, index, c, w =>
    if index < p.stages.length then
      match p.stages[index]? with
      | none => .error .indexOutOfRange
      | some stage =>
        PipeLineInt.Run.loop p fuel (index + 1) (p.runStageInt stage c w).1
          (p.runStageInt stage c w).2
    else .ok (c, w)

/-- The method `PipeLineInt.Run` (`main.go` 76-82). -/
def PipeLineInt.Run {D C W : Type} (p : PipeLineInt D C W) (source : C) (w : W) :
    Except Fault (C × W) :=
  PipeLineInt.Run.loop p p.stages.length 0 source w

/-! ## The filter stages as a network of goroutines -/

/-- The test `data > 0` of `negativeFilterStageInt` (`main.go` 126). -/
def negativeTest (data : Int) : Bool :=
  decide (data > 0)

/-- The test `data != 0 && data%3 == 0` of `specialFilterStageInt` (`main.go`
147); the `%` of Go is the truncated remainder, `Int.tmod`. -/
def specialTest (data : Int) : Bool :=
  data != 0 && Int.tmod data 3 == 0

/-- Which of the two filter closures a goroutine runs. -/
inductive FilterKind where
  | negative
  | special
deriving DecidableEq, Repr

/-- The forwarding test of a filter goroutine. -/
def FilterKind.test : FilterKind → Int → Bool
  | .negative, data => negativeTest data
  | .special, data => specialTest data

/-- Where a filter goroutine is blocked: at its outer `select` (waiting to
receive from `c`), or at its inner `select` (waiting to send `data`). -/
inductive FilterPC where
  | outer
  | inner (data : Int)
deriving DecidableEq, Repr

/-- A filter goroutine: the channels it was started with and its program point.
Channels are unbuffered and identified by a number. -/
structure Goroutine where
  kind : FilterKind
  done : Nat
  c : Nat
  out : Nat
  pc : FilterPC
deriving DecidableEq, Repr

/-- What calling stages acts on: the number of channels made so far and the
goroutines started so far, in start order. -/
structure World where
  chans : Nat
  procs : List Goroutine
deriving DecidableEq, Repr

/-- The stage `negativeFilterStageInt` (`main.go` 120-139): makes the channel
`convertedIntChan`, starts the worker at its outer `select`, returns the
channel. -/
def negativeFilterStageInt : StageInt Nat Nat World := fun done c w =>
  (w.chans, { chans := w.chans + 1,
              procs := w.procs ++ [{ kind := .negative, done := done, c := c, out := w.chans,
                                     pc := .outer }] })

/-- The stage `specialFilterStageInt` (`main.go` 141-160): makes the channel
`filteredIntChan`, starts the worker at its outer `select`, returns the
channel. -/
def specialFilterStageInt : StageInt Nat Nat World := fun done c w =>
  (w.chans, { chans := w.chans + 1,
              procs := w.procs ++ [{ kind := .special, done := done, c := c, out := w.chans,
                                     pc := .outer }] })

/-- A worker after `data := <-c`: it goes to the inner `select` when the test
holds, and back to the outer `select` otherwise. -/
def Goroutine.afterRecv (g : Goroutine) (data : Int) : Goroutine :=
  if g.kind.test data then { g with pc := .inner data } else { g with pc := .outer }

/-- The first goroutine blocked sending on `ch` completes its send: the value
sent and the goroutines afterwards (the sender is back at its outer `select`). -/
def takeSend (ch : Nat) : List Goroutine → Option (Int × List Goroutine)
  | [] => none
  | g :: gs =>
    match g.pc with
    | .inner data =>
      if g.out = ch then some (data, { g with pc := .outer } :: gs)
      else
        match takeSend ch gs with
        | none => none
        | some (v, gs1) => some (v, g :: gs1)
    | .outer =>
      match takeSend ch gs with
      | none => none
      | some (v, gs1) => some (v, g :: gs1)

/-- The first goroutine blocked receiving on `ch` receives `data`. -/
def giveRecv (ch : Nat) (data : Int) : List Goroutine → Option (List Goroutine)
  | [] => none
  | g :: gs =>
    if g.c = ch ∧ g.pc = .outer then some (g.afterRecv data :: gs)
    else
      match giveRecv ch data gs with
      | none => none
      | some gs1 => some (g :: gs1)

/-- A running pipeline whose done channel is never closed, so that no
`case <-done` is ever enabled. `pending` are the values the source still has to
send on `source`, one at a time and in order; `received` are the values received
so far from `sink`, the channel `Run` returned. -/
structure Config where
  pending : List Int
  source : Nat
  sink : Nat
  procs : List Goroutine
  received : List Int
deriving DecidableEq, Repr

/-- One rendezvous on the unbuffered channel `ch`, if a sender and a receiver
are both blocked on it. -/
def step (cfg : Config) (ch : Nat) : Option Config :=
  let sent : Option (Int × Config) :=
    if ch = cfg.source then
      match cfg.pending with
      | [] => none
      | v :: rest => some (v, { cfg with pending := rest })
    else
      match takeSend ch cfg.procs with
      | none => none
      | some (v, gs) => some (v, { cfg with procs := gs })
  match sent with
  | none => none
  | some (v, cfg1) =>
    if ch = cfg.sink then some { cfg1 with received := cfg1.received ++ [v] }
    else
      match giveRecv ch v cfg1.procs with
      | none => none
      | some gs => some { cfg1 with procs := gs }

/-- A schedule: the channels on which the successive rendezvous happen. -/
def exec (cfg : Config) : List Nat → Option Config
  | [] => some cfg
  | ch :: sched =>
    match step cfg ch with
    | none => none
    | some cfg1 => exec cfg1 sched

/-- No rendezvous is possible: every goroutine is blocked for good. -/
def Quiescent (cfg : Config) : Prop :=
  ∀ ch, step cfg ch = none

/-- The pipeline `NewPipelineInt(done, negativeFilterStageInt,
specialFilterStageInt)` run on the source channel, as `main` wires it
(`main.go` 213-217): channel 0 is the source, channel 1 is `done`. -/
def launch (input : List Int) : Except Fault Config :=
  match (NewPipelineInt 1 [negativeFilterStageInt, specialFilterStageInt]).Run 0
      { chans := 2, procs := [] } with
  | .error e => .error e
  | .ok (out, w) =>
    .ok { pending := input, source := 0, sink := out, procs := w.procs, received := [] }


/-! ## Bookkeeping for the two-filter network -/

/-- The running two-filter pipeline in general position. -/
def net (inp : List Int) (p1 p2 : FilterPC) (out : List Int) : Config :=
  { pending := inp, source := 0, sink := 3,
    procs := [{ kind := .negative, done := 1, c := 0, out := 2, pc := p1 },
              { kind := .special, done := 1, c := 2, out := 3, pc := p2 }],
    received := out }

/-- The value a worker holds, if any. -/
def held : FilterPC → List Int
  | .outer => []
  | .inner data => [data]

/-- The program point after a receive of `data` under test `t`. -/
def pcAfter (t : Int → Bool) (data : Int) : FilterPC :=
  if t data then .inner data else .outer

/-- Everything that has reached or can still reach the sink, in order. -/
def total (inp : List Int) (p1 p2 : FilterPC) (out : List Int) : List Int :=
  out ++ (held p2 ++ ((held p1).filter specialTest ++ (inp.filter negativeTest).filter specialTest))

/-- An upper bound on the number of rendezvous still possible. -/
def work (inp : List Int) (p1 p2 : FilterPC) : Nat :=
  3 * inp.length + 2 * (held p1).length + (held p2).length

/-! ## Cancellation

Every `select` of a worker has a `case <-done`. Go chooses among the cases of a
`select` that can proceed, without preferring any of them. A worker is modelled
by the cases it can take at the program point where it is blocked: a receive
and a send can be taken when the neighbour on that channel is ready, the timer
case when the timer has fired, and `case <-done` when done has been closed. -/

/-- The constant `bufferSize` (`main.go` 17). -/
def bufferSize : Int := 10

/-- A goroutine is blocked at a program point, or it has returned. -/
inductive Life (σ : Type) where
  | running (pc : σ)
  | returned
deriving DecidableEq, Repr

/-- The case of a `select` that a worker takes: the receive of `data` from its
input channel, the send to its output channel, the receive from the timer
channel, or `case <-done`. -/
inductive Arm where
  | recv (data : Int)
  | send
  | timer
  | done
deriving DecidableEq, Repr

/-- The worker goroutine of a filter stage (`main.go` 122-137 and 143-158),
`closed` telling whether done has been closed. At the outer `select` it can
receive, at the inner `select` it can send; at both it can take `case <-done`
and return. -/
def filterWorker (k : FilterKind) (closed : Bool) :
    Life FilterPC → Arm → Option (Life FilterPC)
  | .running .outer, .recv data =>
    if k.test data then some (.running (.inner data)) else some (.running .outer)
  | .running (.inner _), .send => some (.running .outer)
  | .running _, .done => if closed then some .returned else none
  | _, _ => none

/-- The collector goroutine of `bufferStageInt` (`main.go` 166-175) together
with the buffer it shares with the flusher: at its `select` it can receive a
value, which it pushes, or take `case <-done` and return. An error is a panic
of `Push`; `none` is a case that cannot be taken. -/
def collectorWorker (closed : Bool) :
    RingIntBuffer × Life Unit → Arm → Except Fault (Option (RingIntBuffer × Life Unit))
  | (buffer, .running _), .recv data =>
    match Push buffer data with
    | .error e => .error e
    | .ok b => .ok (some (b, .running ()))
  | (buffer, .running _), .done =>
    if closed then .ok (some (buffer, .returned)) else .ok none
  | _, _ => .ok none

/-- Where the flusher goroutine is blocked: at its outer `select`, or at the
`select` inside `for _, data := range bufferData`, in iteration `i`, about to
send `data`. -/
inductive FlusherPC where
  | outer
  | inner (bufferData : GoSlice) (i : Nat) (data : Int)
deriving DecidableEq, Repr

/-- Iteration `i` of `for _, data := range bufferData` (`main.go` 184): when
`i < len(bufferData)` the element `bufferData[i]` is read from the backing
array as it is now and the flusher blocks at the inner `select`; otherwise the
loop is over and the flusher is back at its outer `select`. The length of the
backing array never changes, so the element is always there. -/
def rangeNext (bufferData : GoSlice) (i : Nat) (mem : List Int) : FlusherPC :=
  if i < bufferData.len then
    match (bufferData.elems mem)[i]? with
    | some data => .inner bufferData i data
    | none => .outer
  else .outer

/-- The flusher goroutine of `bufferStageInt` (`main.go` 178-196) together with
the buffer it shares with the collector. At the outer `select` the timer case
calls `Get` and enters the `range` loop (a `nil` result has length 0, so the
loop body never runs); at the inner `select` it can send the current element;
at both it can take `case <-done` and return. -/
def flusherWorker (closed : Bool) :
    RingIntBuffer × Life FlusherPC → Arm →
      Except Fault (Option (RingIntBuffer × Life FlusherPC))
  | (buffer, .running .outer), .timer =>
    match Get buffer with
    | .error e => .error e
    | .ok (bufferData, b) => .ok (some (b, .running (rangeNext bufferData 0 b.array)))
  | (buffer, .running (.inner bufferData i _)), .send =>
    .ok (some (buffer, .running (rangeNext bufferData (i + 1) buffer.array)))
  | (buffer, .running _), .done =>
    if closed then .ok (some (buffer, .returned)) else .ok none
  | _, _ => .ok none

/-- A running pipeline together with the state of its done channel. -/
structure Sys where
  cfg : Config
  closed : Bool
deriving DecidableEq, Repr

/-- What can happen in a running pipeline: a rendezvous on a channel, the source
goroutine returning and thereby closing done (`defer close(done)`, `main.go`
97), or goroutine number `i` taking `case <-done`. -/
inductive Event where
  | rendezvous (ch : Nat)
  | closeDone
  | cancel (i : Nat)
deriving DecidableEq, Repr

/-- One event of a running pipeline. The source closes done once, after it has
sent everything it had to send. A goroutine can take `case <-done` only once
done is closed; it then returns and is no longer among the goroutines. A
rendezvous is the one of `step`, whether or not done is closed. -/
def Sys.step (s : Sys) : Event → Option Sys
  | .rendezvous ch =>
    match Pipeline.step s.cfg ch with
    | none => none
    | some cfg1 => some { s with cfg := cfg1 }
  | .closeDone =>
    if s.closed = false ∧ s.cfg.pending = [] then some { s with closed := true } else none
  | .cancel i =>
    if s.closed = true ∧ i < s.cfg.procs.length then
      some { s with cfg := { s.cfg with procs := s.cfg.procs.eraseIdx i } }
    else none

/-- A run of a pipeline: a sequence of events, each of them enabled. -/
def Sys.exec (s : Sys) : List Event → Option Sys
  | [] => some s
  | e :: es =>
    match s.step e with
    | none => none
    | some s1 => Sys.exec s1 es

/-! ## Facts about the buffer -/

theorem index_ok (a : List Int) (k : Nat) (h : k < a.length) :
    ∃ x, index a (k : Int) = .ok x ∧ a[k]? = some x := by
  have hk : a[k]? = some a[k] := List.getElem?_eq_getElem h
  refine ⟨a[k], ?_, hk⟩
  unfold index
  have h1 : (0 : Int) ≤ (k : Int) ∧ (k : Int) < (a.length : Int) := by omega
  simp [h1, hk]

theorem assign_ok (a : List Int) (k : Nat) (v : Int) (h : k < a.length) :
    assign a (k : Int) v = .ok (a.set k v) := by
  unfold assign
  have h1 : (0 : Int) ≤ (k : Int) ∧ (k : Int) < (a.length : Int) := by omega
  simp [h1]

theorem shift_spec (n : Nat) : ∀ (fuel k : Nat) (a : List Int),
    a.length = n → 1 ≤ k → n ≤ fuel + k →
    ∃ a1, Push.shift fuel (k : Int) (n : Int) a = .ok a1 ∧ a1.length = n ∧
      ∀ j, a1[j]? = if k ≤ j + 1 ∧ j + 1 < n then a[j + 1]? else a[j]? := by
  intro fuel
  induction fuel with
  | zero =>
    intro k a hlen hk hfuel
    refine ⟨a, ?_, hlen, ?_⟩
    · have : ¬ ((k : Int) ≤ (n : Int) - 1) := by omega
      simp [Push.shift, this]
    · intro j
      have : ¬ (k ≤ j + 1 ∧ j + 1 < n) := by omega
      simp [this]
  | succ fuel ih =>
    intro k a hlen hk hfuel
    by_cases hc : (k : Int) ≤ (n : Int) - 1
    · have hkn : k < a.length := by omega
      obtain ⟨x, hx, hxe⟩ := index_ok a k hkn
      have hk1 : ((k : Int) - 1) = ((k - 1 : Nat) : Int) := by omega
      have hset := assign_ok a (k - 1) x (by omega)
      obtain ⟨a1, h1, h2, h3⟩ := ih (k + 1) (a.set (k - 1) x) (by simpa using hlen) (by omega) (by omega)
      refine ⟨a1, ?_, h2, ?_⟩
      · simp only [Push.shift, hc, if_true, hx, hk1, hset]
        simpa using h1
      · intro j
        rw [h3 j]
        by_cases hA : k + 1 ≤ j + 1 ∧ j + 1 < n
        · rw [if_pos hA, if_pos (by omega), List.getElem?_set_ne (by omega)]
        · rw [if_neg hA]
          by_cases hB : j + 1 = k
          · have e2 : k - 1 = j := by omega
            have e3 : j < a.length := by omega
            rw [if_pos (by omega), e2, List.getElem?_set_self e3, hB, hxe]
          · rw [if_neg (by omega), List.getElem?_set_ne (by omega)]
    · refine ⟨a, ?_, hlen, ?_⟩
      · simp [Push.shift, hc]
      · intro j
        have : ¬ (k ≤ j + 1 ∧ j + 1 < n) := by omega
        simp [this]

theorem take_set_succ (l : List Int) (p : Nat) (v : Int) (h : p < l.length) :
    (l.set p v).take (p + 1) = l.take p ++ [v] := by
  apply List.ext_getElem?
  intro j
  rw [List.getElem?_take, List.getElem?_set, List.getElem?_append]
  simp only [List.length_take, List.getElem?_take]
  by_cases h1 : j < p
  · have : ¬ p = j := by omega
    simp [h1, this, Nat.lt_succ_of_lt h1, Nat.min_eq_left (Nat.le_of_lt h), Nat.lt_min, Nat.lt_trans h1 h]
  · by_cases h2 : j = p
    · subst h2
      simp [h, Nat.min_eq_left (Nat.le_of_lt h)]
    · have h3 : ¬ j < p + 1 := by omega
      have h4 : ¬ j < min p l.length := by omega
      have h5 : j - min p l.length ≠ 0 := by omega
      simp [h3, h4]
      omega

theorem set_last_shifted (l a1 : List Int) (n : Nat) (v : Int)
    (hl : l.length = n) (ha : a1.length = n) (hn : 1 ≤ n)
    (h : ∀ j, a1[j]? = if 1 ≤ j + 1 ∧ j + 1 < n then l[j + 1]? else l[j]?) :
    a1.set (n - 1) v = l.drop 1 ++ [v] := by
  apply List.ext_getElem?
  intro j
  rw [List.getElem?_set, List.getElem?_append, h j]
  simp only [List.length_drop, List.getElem?_drop, hl, ha]
  by_cases h1 : j + 1 < n
  · have e1 : ¬ n - 1 = j := by omega
    have e2 : j < n - 1 := by omega
    have e3 : 1 ≤ j + 1 ∧ j + 1 < n := by omega
    simp [e1, e2, e3, Nat.add_comm]
  · by_cases h2 : j = n - 1
    · have e1 : n - 1 < n := by omega
      have e2 : ¬ n - 1 < n - 1 := by omega
      subst h2
      simp [e1, e2]
    · have e1 : ¬ n - 1 = j := by omega
      have e2 : ¬ j < n - 1 := by omega
      have e3 : ¬ (1 ≤ j + 1 ∧ j + 1 < n) := by omega
      have e4 : l.length ≤ j := by omega
      have e5 : j - (n - 1) ≠ 0 := by omega
      have e6 : ([v] : List Int)[j - (n - 1)]? = none :=
        List.getElem?_eq_none (by simp; omega)
      simp [e1, e2, e3, List.getElem?_eq_none e4, h1, e6]

theorem stored_length (N : Int) (r : RingIntBuffer) (h : Inv N r) :
    ((stored r).length : Int) = r.pos + 1 := by
  obtain ⟨_, h2, h3, h4⟩ := h
  unfold stored
  rw [List.length_take]
  omega

theorem lastN_of_le (n : Nat) (l : List Int) (h : l.length ≤ n) : lastN n l = l := by
  unfold lastN
  rw [Nat.sub_eq_zero_of_le h, List.drop_zero]

theorem lastN_length (n : Nat) (l : List Int) : (lastN n l).length = min l.length n := by
  unfold lastN
  rw [List.length_drop]
  omega

theorem lastN_append_lastN (n : Nat) (l m : List Int) :
    lastN n (lastN n l ++ m) = lastN n (l ++ m) := by
  unfold lastN
  rw [List.length_append, List.length_append, List.length_drop]
  by_cases h : l.length ≤ n
  · rw [Nat.sub_eq_zero_of_le h, List.drop_zero, Nat.sub_zero]
  · have h1 : l.length - (l.length - n) + m.length - n = m.length := by omega
    have h2 : l.length + m.length - n = (l.length - n) + m.length := by omega
    have h3 : (l ++ m).drop (l.length - n) = l.drop (l.length - n) ++ m :=
      List.drop_append_of_le_length (by omega)
    rw [h1, h2, ← List.drop_drop, h3]

theorem Push_spec (N : Int) (r : RingIntBuffer) (v : Int) (hN : 1 ≤ N) (h : Inv N r) :
    ∃ r1, Push r v = .ok r1 ∧ Inv N r1 ∧ stored r1 = lastN N.toNat (stored r ++ [v]) := by
  obtain ⟨h1, h2, h3, h4⟩ := h
  by_cases hfull : r.pos = r.size - 1
  · obtain ⟨a1, e1, e2, e3⟩ := shift_spec N.toNat N.toNat 1 r.array (by omega) (by omega) (by omega)
    have hN1 : ((N.toNat : Nat) : Int) = N := by omega
    have hp : r.pos = ((N.toNat - 1 : Nat) : Int) := by omega
    have e4 := assign_ok a1 (N.toNat - 1) v (by omega)
    refine ⟨{ r with array := a1.set (N.toNat - 1) v }, ?_, ?_, ?_⟩
    · unfold Push
      rw [if_pos hfull, h1]
      rw [hN1] at e1
      simp only [Nat.cast_one] at e1
      rw [e1]
      simp only
      rw [hp, e4]
    · refine ⟨h1, ?_, h3, h4⟩
      simp only [List.length_set]
      omega
    · have hs : stored r = r.array := by
        unfold stored
        apply List.take_of_length_le
        omega
      have hs1 : (r.pos + 1).toNat = N.toNat := by omega
      rw [hs]
      unfold stored
      simp only [hs1]
      rw [List.take_of_length_le (by simp only [List.length_set]; omega)]
      rw [set_last_shifted r.array a1 N.toNat v (by omega) e2 (by omega) e3]
      unfold lastN
      rw [List.length_append, List.length_singleton]
      have : r.array.length + 1 - N.toNat = 1 := by omega
      rw [this, List.drop_append_of_le_length (by omega)]
  · have hp : r.pos + 1 = (((r.pos + 1).toNat : Nat) : Int) := by omega
    have e4 := assign_ok r.array (r.pos + 1).toNat v (by omega)
    refine ⟨{ r with pos := r.pos + 1, array := r.array.set (r.pos + 1).toNat v }, ?_, ?_, ?_⟩
    · unfold Push
      rw [if_neg hfull]
      rw [← hp] at e4
      rw [e4]
    · refine ⟨h1, ?_, ?_, ?_⟩
      · simp only [List.length_set]
        exact h2
      · show -1 ≤ r.pos + 1
        omega
      · show r.pos + 1 ≤ N - 1
        omega
    · have hs1 : (r.pos + 1 + 1).toNat = (r.pos + 1).toNat + 1 := by omega
      unfold stored
      simp only [hs1]
      rw [take_set_succ _ _ _ (by omega)]
      rw [lastN_of_le]
      rw [List.length_append, List.length_take, List.length_singleton]
      omega

theorem New_ok (N : Int) (r : RingIntBuffer) (h : NewRingIntBuffer N = .ok r) :
    Inv N r ∧ r.pos = -1 ∧ 0 ≤ N := by
  unfold NewRingIntBuffer at h
  by_cases hN : N < 0 ∨ maxSliceLen < N
  · rw [if_pos hN] at h
    cases h
  · rw [if_neg hN] at h
    cases h
    have h0 : 0 ≤ N := by omega
    refine ⟨⟨rfl, ?_, ?_, ?_⟩, rfl, h0⟩
    · simp only [List.length_replicate]
      omega
    · show (-1 : Int) ≤ -1
      omega
    · show (-1 : Int) ≤ N - 1
      omega

theorem Get_spec (N : Int) (r : RingIntBuffer) (h : Inv N r) :
    ∃ s, Get r = .ok (s, { r with pos := -1 }) ∧ Inv N { r with pos := -1 } ∧
      s.elems r.array = stored r ∧ (s.len : Int) = r.pos + 1 ∧
      (r.pos = -1 → s = .nil) := by
  obtain ⟨h1, h2, h3, h4⟩ := h
  have hinv : Inv N { r with pos := -1 } := by
    refine ⟨h1, h2, ?_, ?_⟩
    · show (-1 : Int) ≤ -1
      omega
    · show (-1 : Int) ≤ N - 1
      omega
  by_cases hp : r.pos < 0
  · have hp1 : r.pos = -1 := by omega
    have hr : ({ r with pos := -1 } : RingIntBuffer) = r := by
      cases r
      simp only at hp1
      simp [hp1]
    refine ⟨.nil, ?_, hinv, ?_, ?_, fun _ => rfl⟩
    · unfold Get
      rw [if_pos hp, hr]
    · unfold stored
      simp [GoSlice.elems, hp1]
    · simp [GoSlice.len, hp1]
  · refine ⟨.view (r.pos + 1).toNat, ?_, hinv, rfl, ?_, ?_⟩
    · unfold Get
      rw [if_neg hp, if_pos (by omega)]
    · simp only [GoSlice.len]
      omega
    · intro hc
      omega

theorem Push_ok_capacity (N : Int) (r r1 : RingIntBuffer) (v : Int) (h : Inv N r)
    (hp : Push r v = .ok r1) : 1 ≤ N := by
  by_contra hN
  obtain ⟨h1, h2, h3, h4⟩ := h
  have hN0 : N = 0 := by omega
  have hpos : r.pos = -1 := by omega
  have hlen : r.array = [] := List.length_eq_zero.mp (by omega)
  have hfull : r.pos = r.size - 1 := by omega
  unfold Push at hp
  rw [if_pos hfull, h1, hN0, hlen, hpos] at hp
  simp [Push.shift, assign] at hp

theorem Call_run_spec (N : Int) (r : RingIntBuffer) (c : Call) (hN : 1 ≤ N) (h : Inv N r) :
    ∃ r1, c.run r = .ok r1 ∧ Inv N r1 := by
  cases c with
  | push v =>
    obtain ⟨r1, e1, e2, _⟩ := Push_spec N r v hN h
    exact ⟨r1, e1, e2⟩
  | get =>
    obtain ⟨s, e1, e2, _⟩ := Get_spec N r h
    refine ⟨_, ?_, e2⟩
    simp only [Call.run, e1]

theorem Call_run_inv (N : Int) (r r1 : RingIntBuffer) (c : Call) (h : Inv N r)
    (hc : c.run r = .ok r1) : Inv N r1 := by
  cases c with
  | push v =>
    have hN := Push_ok_capacity N r r1 v h hc
    obtain ⟨r2, e1, e2, _⟩ := Push_spec N r v hN h
    simp only [Call.run] at hc
    rw [e1] at hc
    cases hc
    exact e2
  | get =>
    obtain ⟨s, e1, e2, _⟩ := Get_spec N r h
    simp only [Call.run, e1] at hc
    cases hc
    exact e2

theorem calls_total (N : Int) (hN : 1 ≤ N) : ∀ (cs : List Call) (r : RingIntBuffer),
    Inv N r → ∃ r1, calls r cs = .ok r1 ∧ Inv N r1 := by
  intro cs
  induction cs with
  | nil => exact fun r h => ⟨r, rfl, h⟩
  | cons c cs ih =>
    intro r h
    obtain ⟨r1, e1, e2⟩ := Call_run_spec N r c hN h
    obtain ⟨r2, e3, e4⟩ := ih r1 e2
    refine ⟨r2, ?_, e4⟩
    simp only [calls, e1, e3]

theorem calls_inv (N : Int) : ∀ (cs : List Call) (r r1 : RingIntBuffer),
    Inv N r → calls r cs = .ok r1 → Inv N r1 := by
  intro cs
  induction cs with
  | nil =>
    intro r r1 h hc
    simp only [calls] at hc
    cases hc
    exact h
  | cons c cs ih =>
    intro r r1 h hc
    simp only [calls] at hc
    cases hrun : c.run r with
    | error e => rw [hrun] at hc; cases hc
    | ok r2 =>
      rw [hrun] at hc
      exact ih r2 r1 (Call_run_inv N r r2 c h hrun) hc

theorem reach_inv (N : Int) (cs : List Call) (r : RingIntBuffer) (h : reach N cs = .ok r) :
    Inv N r := by
  unfold reach at h
  cases hnew : NewRingIntBuffer N with
  | error e => rw [hnew] at h; cases h
  | ok r0 =>
    rw [hnew] at h
    exact calls_inv N cs r0 r (New_ok N r0 hnew).1 h

theorem reach_new (N : Int) (cs : List Call) (r : RingIntBuffer) (h : reach N cs = .ok r) :
    ∃ r0, NewRingIntBuffer N = .ok r0 := by
  unfold reach at h
  cases hnew : NewRingIntBuffer N with
  | error e => rw [hnew] at h; cases h
  | ok r0 => exact ⟨r0, rfl⟩

theorem reach_total (N : Int) (cs : List Call) (r0 : RingIntBuffer) (hN : 1 ≤ N)
    (h0 : NewRingIntBuffer N = .ok r0) :
    ∃ r, reach N cs = .ok r ∧ Inv N r := by
  obtain ⟨r1, e3, e4⟩ := calls_total N hN cs r0 (New_ok N r0 h0).1
  refine ⟨r1, ?_, e4⟩
  simp only [reach, h0, e3]

theorem pushes_spec (N : Int) (hN : 1 ≤ N) : ∀ (vs : List Int) (r : RingIntBuffer),
    Inv N r → ∃ r1, calls r (vs.map Call.push) = .ok r1 ∧ Inv N r1 ∧
      stored r1 = lastN N.toNat (stored r ++ vs) := by
  intro vs
  induction vs with
  | nil =>
    intro r h
    refine ⟨r, rfl, h, ?_⟩
    rw [List.append_nil, lastN_of_le]
    have := stored_length N r h
    obtain ⟨_, _, _, h4⟩ := h
    omega
  | cons v vs ih =>
    intro r h
    obtain ⟨r1, e1, e2, e3⟩ := Push_spec N r v hN h
    obtain ⟨r2, e4, e5, e6⟩ := ih r1 e2
    refine ⟨r2, ?_, e5, ?_⟩
    · simp only [List.map_cons, calls, Call.run, e1, e4]
    · rw [e6, e3, lastN_append_lastN, List.append_assoc, List.singleton_append]

theorem stored_of_pos (r : RingIntBuffer) (h : r.pos = -1) : stored r = [] := by
  unfold stored
  rw [h]
  rfl

/-! ## Facts about `Run` -/

theorem Run_loop_spec {D C W : Type} (p : PipeLineInt D C W) :
    ∀ (fuel index : Nat) (c : C) (w : W), index + fuel = p.stages.length →
      PipeLineInt.Run.loop p fuel index c w
        = .ok ((p.stages.drop index).foldl (fun cw stage => stage p.done cw.1 cw.2) (c, w)) := by
  intro fuel
  induction fuel with
  | zero =>
    intro index c w h
    have h1 : ¬ index < p.stages.length := by omega
    have h2 : p.stages.drop index = [] := List.drop_eq_nil_of_le (by omega)
    simp only [PipeLineInt.Run.loop, if_neg h1, h2, List.foldl_nil]
  | succ fuel ih =>
    intro index c w h
    have h1 : index < p.stages.length := by omega
    have h2 : p.stages[index]? = some p.stages[index] := List.getElem?_eq_getElem h1
    have h3 : p.stages.drop index = p.stages[index] :: p.stages.drop (index + 1) :=
      List.drop_eq_getElem_cons h1
    simp only [PipeLineInt.Run.loop, if_pos h1, h2]
    rw [ih (index + 1) _ _ (by omega), h3, List.foldl_cons]
    rfl

/-! ## Facts about the filter tests -/

theorem specialTest_iff (v : Int) : specialTest v = true ↔ v ≠ 0 ∧ (3 : Int) ∣ v := by
  unfold specialTest
  simp only [Bool.and_eq_true, bne_iff_ne, ne_eq, beq_iff_eq]
  constructor
  · rintro ⟨h1, h2⟩
    exact ⟨h1, Int.dvd_of_tmod_eq_zero h2⟩
  · rintro ⟨h1, h2⟩
    exact ⟨h1, Int.tmod_eq_zero_of_dvd h2⟩

theorem negativeTest_iff (v : Int) : negativeTest v = true ↔ 0 < v := by
  unfold negativeTest
  simp

theorem filter_filter_tests (l : List Int) :
    (l.filter negativeTest).filter specialTest
      = l.filter (fun v => decide (0 < v ∧ (3 : Int) ∣ v)) := by
  rw [List.filter_filter]
  apply List.filter_congr
  intro v _
  rw [Bool.eq_iff_iff]
  simp only [Bool.and_eq_true, decide_eq_true_eq, specialTest_iff, negativeTest_iff]
  constructor
  · rintro ⟨⟨_, h2⟩, h3⟩
    exact ⟨h3, h2⟩
  · rintro ⟨h1, h2⟩
    exact ⟨⟨by omega, h2⟩, h1⟩

theorem step_net_source (inp : List Int) (p1 p2 : FilterPC) (out : List Int) :
    step (net inp p1 p2 out) 0 =
      match inp, p1 with
      | v :: rest, .outer => some (net rest (pcAfter negativeTest v) p2 out)
      | _, _ => none := by
  cases inp with
  | nil => rfl
  | cons v rest =>
    cases p1 with
    | outer =>
      simp only [step, net, giveRecv, Goroutine.afterRecv, pcAfter, FilterKind.test]
      by_cases ht : negativeTest v = true <;>
        simp [ht, giveRecv, Goroutine.afterRecv, FilterKind.test]
    | inner d =>
      cases p2 <;> simp [step, net, giveRecv]

theorem step_net_middle (inp : List Int) (p1 p2 : FilterPC) (out : List Int) :
    step (net inp p1 p2 out) 2 =
      match p1, p2 with
      | .inner d, .outer => some (net inp .outer (pcAfter specialTest d) out)
      | _, _ => none := by
  cases p1 with
  | outer => cases p2 <;> simp [step, net, takeSend]
  | inner d =>
    cases p2 with
    | outer =>
      simp only [step, net, takeSend, giveRecv, Goroutine.afterRecv, pcAfter, FilterKind.test]
      by_cases ht : specialTest d = true <;>
        simp [ht, giveRecv, Goroutine.afterRecv, FilterKind.test]
    | inner e => simp [step, net, takeSend, giveRecv]

theorem step_net_sink (inp : List Int) (p1 p2 : FilterPC) (out : List Int) :
    step (net inp p1 p2 out) 3 =
      match p2 with
      | .inner d => some (net inp p1 .outer (out ++ [d]))
      | .outer => none := by
  cases p1 <;> cases p2 <;> simp [step, net, takeSend]

theorem step_net_other (inp : List Int) (p1 p2 : FilterPC) (out : List Int) (ch : Nat)
    (h0 : ch ≠ 0) (h2 : ch ≠ 2) (h3 : ch ≠ 3) :
    step (net inp p1 p2 out) ch = none := by
  have e2 : ¬ (2 = ch) := fun h => h2 h.symm
  have e3 : ¬ (3 = ch) := fun h => h3 h.symm
  cases p1 <;> cases p2 <;> simp [step, net, takeSend, h0, e2, e3]

theorem held_outer : held .outer = [] := rfl

theorem held_inner (d : Int) : held (.inner d) = [d] := rfl

theorem held_pcAfter (t : Int → Bool) (d : Int) : held (pcAfter t d) = [d].filter t := by
  unfold pcAfter
  by_cases h : t d = true
  · simp [h, held]
  · simp [h, held]

theorem held_pcAfter_length (t : Int → Bool) (d : Int) : (held (pcAfter t d)).length ≤ 1 := by
  unfold pcAfter
  by_cases h : t d = true
  · simp [h, held]
  · simp [h, held]

theorem step_net (inp : List Int) (p1 p2 : FilterPC) (out : List Int) (ch : Nat) (cfg : Config)
    (h : step (net inp p1 p2 out) ch = some cfg) :
    ∃ inp1 q1 q2 out1, cfg = net inp1 q1 q2 out1 ∧
      total inp1 q1 q2 out1 = total inp p1 p2 out ∧ work inp1 q1 q2 < work inp p1 p2 := by
  by_cases h0 : ch = 0
  · subst h0
    rw [step_net_source] at h
    cases inp with
    | nil => cases h
    | cons v rest =>
      cases p1 with
      | inner d => cases h
      | outer =>
        simp only [Option.some.injEq] at h
        refine ⟨rest, pcAfter negativeTest v, p2, out, h.symm, ?_, ?_⟩
        · have e : (v :: rest) = [v] ++ rest := rfl
          simp only [total, held_pcAfter, held_outer, held_inner, e, List.filter_append, List.filter_nil,
            List.nil_append]
        · have := held_pcAfter_length negativeTest v
          simp only [work, held_outer, held_inner, List.length_cons, List.length_nil]
          omega
  · by_cases h2 : ch = 2
    · subst h2
      rw [step_net_middle] at h
      cases p1 with
      | outer => cases h
      | inner d =>
        cases p2 with
        | inner e => cases h
        | outer =>
          simp only [Option.some.injEq] at h
          refine ⟨inp, .outer, pcAfter specialTest d, out, h.symm, ?_, ?_⟩
          · simp only [total, held_pcAfter, held_outer, held_inner, List.filter_nil, List.nil_append]
          · have := held_pcAfter_length specialTest d
            simp only [work, held_outer, held_inner, List.length_cons, List.length_nil]
            omega
    · by_cases h3 : ch = 3
      · subst h3
        rw [step_net_sink] at h
        cases p2 with
        | outer => cases h
        | inner d =>
          simp only [Option.some.injEq] at h
          refine ⟨inp, p1, .outer, out ++ [d], h.symm, ?_, ?_⟩
          · simp only [total, held_outer, held_inner, List.nil_append, List.append_assoc, List.singleton_append]
          · simp only [work, held_outer, held_inner, List.length_cons, List.length_nil]
            omega
      · rw [step_net_other inp p1 p2 out ch h0 h2 h3] at h
        cases h

theorem exec_net : ∀ (sched : List Nat) (inp : List Int) (p1 p2 : FilterPC) (out : List Int)
    (cfg : Config), exec (net inp p1 p2 out) sched = some cfg →
    ∃ inp1 q1 q2 out1, cfg = net inp1 q1 q2 out1 ∧
      total inp1 q1 q2 out1 = total inp p1 p2 out ∧
      sched.length + work inp1 q1 q2 ≤ work inp p1 p2 := by
  intro sched
  induction sched with
  | nil =>
    intro inp p1 p2 out cfg h
    simp only [exec, Option.some.injEq] at h
    exact ⟨inp, p1, p2, out, h.symm, rfl, by simp⟩
  | cons ch sched ih =>
    intro inp p1 p2 out cfg h
    simp only [exec] at h
    cases hs : step (net inp p1 p2 out) ch with
    | none => rw [hs] at h; cases h
    | some cfg1 =>
      rw [hs] at h
      obtain ⟨inp1, q1, q2, out1, e1, e2, e3⟩ := step_net inp p1 p2 out ch cfg1 hs
      subst e1
      obtain ⟨inp2, s1, s2, out2, f1, f2, f3⟩ := ih inp1 q1 q2 out1 cfg h
      refine ⟨inp2, s1, s2, out2, f1, f2.trans e2, ?_⟩
      simp only [List.length_cons]
      omega

theorem quiescent_net_iff (inp : List Int) (p1 p2 : FilterPC) (out : List Int) :
    Quiescent (net inp p1 p2 out) ↔ inp = [] ∧ p1 = .outer ∧ p2 = .outer := by
  constructor
  · intro hq
    have h3 := hq 3
    have h2 := hq 2
    have h0 := hq 0
    rw [step_net_sink] at h3
    rw [step_net_middle] at h2
    rw [step_net_source] at h0
    cases p2 with
    | inner d => cases h3
    | outer =>
      cases p1 with
      | inner d => cases h2
      | outer =>
        cases inp with
        | nil => exact ⟨rfl, rfl, rfl⟩
        | cons v rest => cases h0
  · rintro ⟨rfl, rfl, rfl⟩ ch
    by_cases h0 : ch = 0
    · subst h0; rw [step_net_source]
    · by_cases h2 : ch = 2
      · subst h2; rw [step_net_middle]
      · by_cases h3 : ch = 3
        · subst h3; rw [step_net_sink]
        · exact step_net_other _ _ _ _ ch h0 h2 h3

theorem exec_append (cfg cfg1 : Config) (s1 s2 : List Nat) (h : exec cfg s1 = some cfg1) :
    exec cfg (s1 ++ s2) = exec cfg1 s2 := by
  induction s1 generalizing cfg with
  | nil =>
    simp only [exec, Option.some.injEq] at h
    rw [h, List.nil_append]
  | cons ch s1 ih =>
    simp only [exec] at h
    cases hs : step cfg ch with
    | none => rw [hs] at h; cases h
    | some c1 =>
      rw [hs] at h
      simp only [List.cons_append, exec, hs]
      exact ih c1 h

theorem net_completes : ∀ (n : Nat) (inp : List Int) (p1 p2 : FilterPC) (out : List Int),
    work inp p1 p2 ≤ n →
    ∃ sched cfg, exec (net inp p1 p2 out) sched = some cfg ∧ Quiescent cfg := by
  intro n
  induction n with
  | zero =>
    intro inp p1 p2 out h
    refine ⟨[], _, rfl, ?_⟩
    rw [quiescent_net_iff]
    cases inp with
    | cons v rest => simp only [work, List.length_cons] at h; omega
    | nil =>
      cases p1 with
      | inner d => simp only [work, held, List.length_cons] at h; omega
      | outer =>
        cases p2 with
        | inner d => simp only [work, held, List.length_cons] at h; omega
        | outer => exact ⟨rfl, rfl, rfl⟩
  | succ n ih =>
    intro inp p1 p2 out h
    have key : Quiescent (net inp p1 p2 out) ∨
        ∃ ch cfg1, step (net inp p1 p2 out) ch = some cfg1 := by
      cases p2 with
      | inner d => exact Or.inr ⟨3, _, by rw [step_net_sink]⟩
      | outer =>
        cases p1 with
        | inner d => exact Or.inr ⟨2, _, by rw [step_net_middle]⟩
        | outer =>
          cases inp with
          | cons v rest => exact Or.inr ⟨0, _, by rw [step_net_source]⟩
          | nil => exact Or.inl ((quiescent_net_iff _ _ _ _).mpr ⟨rfl, rfl, rfl⟩)
    rcases key with hq | ⟨ch, cfg1, hs⟩
    · exact ⟨[], _, rfl, hq⟩
    · obtain ⟨inp1, q1, q2, out1, e1, _, e3⟩ := step_net inp p1 p2 out ch cfg1 hs
      subst e1
      obtain ⟨sched, cfg, f1, f2⟩ := ih inp1 q1 q2 out1 (by omega)
      refine ⟨ch :: sched, cfg, ?_, f2⟩
      simp only [exec, hs, f1]

theorem launch_eq (input : List Int) : launch input = .ok (net input .outer .outer []) := rfl

/-! ## The buffer claims -/

/-- C1: for every capacity `N ≥ 1` for which `NewRingIntBuffer(N)` returns a
buffer and every list `vs` of pushed values, the calls `Push(v1)`, ...,
`Push(vk)` all succeed and the following `Get` returns a slice whose elements
are the last `min(k, N)` pushed values in insertion order: all of `vs` when
`k ≤ N`, and `nil` when `k = 0`. -/
theorem get_after_pushes_returns_last_N (N : Int) (vs : List Int) (r0 : RingIntBuffer)
    (hN : 1 ≤ N) (h0 : NewRingIntBuffer N = .ok r0) :
    ∃ r s r1, reach N (vs.map Call.push) = .ok r ∧ Get r = .ok (s, r1) ∧
      s.elems r1.array = lastN N.toNat vs ∧
      s.len = min vs.length N.toNat ∧
      (vs.length ≤ N.toNat → s.elems r1.array = vs) ∧
      (vs = [] → s = GoSlice.nil) := by
  have e1 := h0
  obtain ⟨e2, e3, _⟩ := New_ok N r0 h0
  obtain ⟨r, e4, e5, e6⟩ := pushes_spec N hN vs r0 e2
  obtain ⟨s, e7, _, e9, e10, e11⟩ := Get_spec N r e5
  rw [stored_of_pos r0 e3, List.nil_append] at e6
  have hlen := stored_length N r e5
  rw [e6, lastN_length] at hlen
  refine ⟨r, s, _, ?_, e7, ?_, ?_, ?_, ?_⟩
  · simp only [reach, e1, e4]
  · exact e9.trans e6
  · omega
  · intro hk
    exact (e9.trans e6).trans (lastN_of_le _ _ hk)
  · intro hvs
    apply e11
    rw [hvs] at hlen
    simp only [List.length_nil] at hlen
    omega

/-- Witness for C1: capacity 10 and the pushes 1..12; the last ten values are
3..12. -/
theorem get_after_pushes_returns_last_N_witness :
    (1 : Int) ≤ 10 ∧
    NewRingIntBuffer 10 = .ok { array := [0, 0, 0, 0, 0, 0, 0, 0, 0, 0], pos := -1, size := 10 } ∧
    lastN 10 [1, 2, 3, 4, 5, 6, 7, 8, 9, 10, 11, 12] = [3, 4, 5, 6, 7, 8, 9, 10, 11, 12] ∧
    ∃ r s r1, reach 10 ([1, 2, 3, 4, 5, 6, 7, 8, 9, 10, 11, 12].map Call.push) = .ok r ∧
      Get r = .ok (s, r1) ∧
      s.elems r1.array = lastN (10 : Int).toNat [1, 2, 3, 4, 5, 6, 7, 8, 9, 10, 11, 12] ∧
      s.len = min [1, 2, 3, 4, 5, 6, 7, 8, 9, 10, 11, (12 : Int)].length (10 : Int).toNat ∧
      ([1, 2, 3, 4, 5, 6, 7, 8, 9, 10, 11, (12 : Int)].length ≤ (10 : Int).toNat →
        s.elems r1.array = [1, 2, 3, 4, 5, 6, 7, 8, 9, 10, 11, 12]) ∧
      ([1, 2, 3, 4, 5, 6, 7, 8, 9, 10, 11, (12 : Int)] = [] → s = GoSlice.nil) :=
  ⟨by decide, by decide, by decide,
    get_after_pushes_returns_last_N 10 [1, 2, 3, 4, 5, 6, 7, 8, 9, 10, 11, 12]
      { array := [0, 0, 0, 0, 0, 0, 0, 0, 0, 0], pos := -1, size := 10 } (by decide) (by decide)⟩

/-- C2 as stated fails at capacity 0: `NewRingIntBuffer(0)` succeeds, and the
first `Push` on it evaluates `r.array[r.pos]` with `r.pos = -1` on an empty
array, an index out of range. -/
theorem push_on_zero_capacity_panics :
    (0 : Int) ≥ 0 ∧
    reach 0 [] = .ok { array := [], pos := -1, size := 0 } ∧
    Push { array := [], pos := -1, size := 0 } 7 = .error Fault.indexOutOfRange ∧
    ¬ (∀ (N : Int) (cs : List Call) (r : RingIntBuffer) (v : Int),
        0 ≤ N → reach N cs = .ok r → ∃ r1, Push r v = .ok r1) := by
  refine ⟨by decide, by decide, by decide, ?_⟩
  intro h
  obtain ⟨r1, h1⟩ := h 0 [] { array := [], pos := -1, size := 0 } 7 (by decide) (by decide)
  have e : Push { array := [], pos := -1, size := 0 } 7 = .error Fault.indexOutOfRange := by
    decide
  rw [e] at h1
  cases h1

/-- C2 (amended): for every capacity `N ≥ 1`, in every state reached from
`NewRingIntBuffer(N)` by a sequence of `Push` and `Get` calls, `Push(v)`
completes normally for every `v`: each access `array[i-1]`, `array[i]`,
`array[pos]` it makes is within bounds. Moreover, once `NewRingIntBuffer(N)`
has returned a buffer, every sequence of `Push` and `Get` calls on it
completes. -/
theorem push_never_panics_for_positive_capacity (N : Int) (cs : List Call) (v : Int)
    (hN : 1 ≤ N) :
    (∀ r0, NewRingIntBuffer N = .ok r0 → ∃ r, reach N cs = .ok r) ∧
    ∀ r, reach N cs = .ok r → ∃ r1, Push r v = .ok r1 := by
  constructor
  · intro r0 h0
    obtain ⟨r, e1, _⟩ := reach_total N cs r0 hN h0
    exact ⟨r, e1⟩
  · intro r hr
    obtain ⟨r1, e1, _⟩ := Push_spec N r v hN (reach_inv N cs r hr)
    exact ⟨r1, e1⟩

/-- Witness for C2 (amended): capacity 2, after three pushes and a `Get`. -/
theorem push_never_panics_for_positive_capacity_witness :
    (1 : Int) ≤ 2 ∧
    NewRingIntBuffer 2 = .ok { array := [0, 0], pos := -1, size := 2 } ∧
    reach 2 [.push 1, .push 2, .push 3, .get] = .ok { array := [2, 3], pos := -1, size := 2 } ∧
    (∀ r0, NewRingIntBuffer 2 = .ok r0 →
      ∃ r, reach 2 [.push 1, .push 2, .push 3, .get] = .ok r) ∧
    ∀ r, reach 2 [.push 1, .push 2, .push 3, .get] = .ok r → ∃ r1, Push r 4 = .ok r1 :=
  ⟨by decide, by decide, by decide,
    push_never_panics_for_positive_capacity 2 [.push 1, .push 2, .push 3, .get] 4 (by decide)⟩

/-- C3: the slice returned by `Get` is not an independent snapshot. With
capacity 2 and pushes 1, 2, `Get` returns a slice that reads `[1, 2]`; after one
more `Push(3)` on the same buffer the same slice reads `[3, 2]`. -/
theorem get_result_is_overwritten_by_later_push :
    reach 2 [.push 1, .push 2] = .ok { array := [1, 2], pos := 1, size := 2 } ∧
    Get { array := [1, 2], pos := 1, size := 2 }
      = .ok (GoSlice.view 2, { array := [1, 2], pos := -1, size := 2 }) ∧
    (GoSlice.view 2).elems [1, 2] = [1, 2] ∧
    Push { array := [1, 2], pos := -1, size := 2 } 3
      = .ok { array := [3, 2], pos := 0, size := 2 } ∧
    (GoSlice.view 2).elems [3, 2] = [3, 2] := by
  decide

/-- C4: in every state reachable from `NewRingIntBuffer(N)` by any sequence of
`Push` and `Get` calls, `size = N`, the backing array has length `N`,
`-1 ≤ pos ≤ N-1`, the stored sequence `array[0..pos]` has length `pos+1 ≤ N`,
and `Get` succeeds there with a slice of length at most `N`. -/
theorem capacity_invariant (N : Int) (cs : List Call) (r : RingIntBuffer)
    (h : reach N cs = .ok r) :
    r.size = N ∧ (r.array.length : Int) = N ∧ -1 ≤ r.pos ∧ r.pos ≤ N - 1 ∧
    ((stored r).length : Int) = r.pos + 1 ∧ ((stored r).length : Int) ≤ N ∧
    (∃ s r1, Get r = .ok (s, r1)) ∧
    ∀ s r1, Get r = .ok (s, r1) → (s.len : Int) ≤ N ∧ (s.elems r1.array).length = s.len := by
  have hinv := reach_inv N cs r h
  have hlen := stored_length N r hinv
  obtain ⟨s, e1, _, e3, e4, _⟩ := Get_spec N r hinv
  obtain ⟨h1, h2, h3, h4⟩ := hinv
  refine ⟨h1, h2, h3, h4, hlen, by omega, ⟨s, _, e1⟩, ?_⟩
  intro s1 r1 hg
  rw [e1] at hg
  cases hg
  constructor
  · omega
  · show (s.elems r.array).length = s.len
    rw [e3]
    omega

/-- Witness for C4: capacity 3 after four pushes. -/
theorem capacity_invariant_witness :
    reach 3 [.push 5, .push 6, .push 7, .push 8] = .ok { array := [6, 7, 8], pos := 2, size := 3 } ∧
    (({ array := [6, 7, 8], pos := 2, size := 3 } : RingIntBuffer).size = 3 ∧
    ((({ array := [6, 7, 8], pos := 2, size := 3 } : RingIntBuffer).array.length : Nat) : Int) = 3 ∧
    -1 ≤ ({ array := [6, 7, 8], pos := 2, size := 3 } : RingIntBuffer).pos ∧
    ({ array := [6, 7, 8], pos := 2, size := 3 } : RingIntBuffer).pos ≤ 3 - 1 ∧
    ((stored { array := [6, 7, 8], pos := 2, size := 3 }).length : Int)
      = ({ array := [6, 7, 8], pos := 2, size := 3 } : RingIntBuffer).pos + 1 ∧
    ((stored { array := [6, 7, 8], pos := 2, size := 3 }).length : Int) ≤ 3 ∧
    (∃ s r1, Get { array := [6, 7, 8], pos := 2, size := 3 } = .ok (s, r1)) ∧
    ∀ s r1, Get { array := [6, 7, 8], pos := 2, size := 3 } = .ok (s, r1) →
      (s.len : Int) ≤ 3 ∧ (s.elems r1.array).length = s.len) :=
  ⟨by decide,
    capacity_invariant 3 [.push 5, .push 6, .push 7, .push 8]
      { array := [6, 7, 8], pos := 2, size := 3 } (by decide)⟩

/-- C5: in every state reachable by `Push` and `Get` calls, `Get` succeeds and a
second `Get` right after it returns `nil` and leaves the state unchanged; `Get`
on a freshly constructed buffer returns `nil`. -/
theorem get_twice_returns_nil (N : Int) (cs : List Call) (r : RingIntBuffer)
    (h : reach N cs = .ok r) :
    (∃ s r1, Get r = .ok (s, r1) ∧ Get r1 = .ok (GoSlice.nil, r1)) ∧
    ∀ r0, NewRingIntBuffer N = .ok r0 → Get r0 = .ok (GoSlice.nil, r0) := by
  have hinv := reach_inv N cs r h
  obtain ⟨s, e1, e2, _⟩ := Get_spec N r hinv
  constructor
  · refine ⟨s, _, e1, ?_⟩
    unfold Get
    rw [if_pos (by show (-1 : Int) < 0; omega)]
  · intro r0 h0
    obtain ⟨_, hp, _⟩ := New_ok N r0 h0
    unfold Get
    rw [if_pos (by omega)]

/-- Witness for C5: capacity 2 after two pushes. -/
theorem get_twice_returns_nil_witness :
    reach 2 [.push 4, .push 5] = .ok { array := [4, 5], pos := 1, size := 2 } ∧
    ((∃ s r1, Get { array := [4, 5], pos := 1, size := 2 } = .ok (s, r1) ∧
        Get r1 = .ok (GoSlice.nil, r1)) ∧
      ∀ r0, NewRingIntBuffer 2 = .ok r0 → Get r0 = .ok (GoSlice.nil, r0)) :=
  ⟨by decide,
    get_twice_returns_nil 2 [.push 4, .push 5] { array := [4, 5], pos := 1, size := 2 }
      (by decide)⟩

/-- C10: for every capacity `N ≥ 1` and every state reachable by `Push` and
`Get` calls, a `Get` followed by `Push(w1)`, ..., `Push(wk)` and a second `Get`
all succeed, and the second `Get` returns exactly the last `min(k, N)` of
`w1..wk` in insertion order: the same slice header and the same elements that a
freshly constructed buffer of capacity `N` gives for the same pushes. -/
theorem get_resets_buffer (N : Int) (cs : List Call) (ws : List Int) (r : RingIntBuffer)
    (hN : 1 ≤ N) (h : reach N cs = .ok r) :
    ∃ s1 r1 r2 s2 r3 f sf rf,
      Get r = .ok (s1, r1) ∧ calls r1 (ws.map Call.push) = .ok r2 ∧ Get r2 = .ok (s2, r3) ∧
      s2.elems r3.array = lastN N.toNat ws ∧ s2.len = min ws.length N.toNat ∧
      reach N (ws.map Call.push) = .ok f ∧ Get f = .ok (sf, rf) ∧
      s2 = sf ∧ s2.elems r3.array = sf.elems rf.array := by
  have hinv := reach_inv N cs r h
  obtain ⟨s1, e1, e2, _⟩ := Get_spec N r hinv
  obtain ⟨r2, e3, e4, e5⟩ := pushes_spec N hN ws _ e2
  obtain ⟨s2, e6, _, e7, e8, e9⟩ := Get_spec N r2 e4
  rw [stored_of_pos { r with pos := -1 } rfl, List.nil_append] at e5
  obtain ⟨r0, n1⟩ := reach_new N cs r h
  obtain ⟨n2, n3, _⟩ := New_ok N r0 n1
  obtain ⟨f, n4, n5, n6⟩ := pushes_spec N hN ws r0 n2
  obtain ⟨sf, n7, _, n8, n9, n10⟩ := Get_spec N f n5
  rw [stored_of_pos r0 n3, List.nil_append] at n6
  have hlen2 := stored_length N r2 e4
  have hlenf := stored_length N f n5
  rw [e5, lastN_length] at hlen2
  rw [n6, lastN_length] at hlenf
  have hl : s2.len = sf.len := by omega
  have hs : s2 = sf := by
    cases s2 with
    | nil =>
      cases sf with
      | nil => rfl
      | view m =>
        have h0 : 0 = m := hl
        have h9 : ((m : Nat) : Int) = f.pos + 1 := n9
        have hnil := n10 (by omega)
        cases hnil
    | view k =>
      cases sf with
      | nil =>
        have h0 : k = 0 := hl
        have h9 : ((k : Nat) : Int) = r2.pos + 1 := e8
        have hnil := e9 (by omega)
        cases hnil
      | view m =>
        have h0 : k = m := hl
        rw [h0]
  refine ⟨s1, _, r2, s2, _, f, sf, _, e1, e3, e6, e7.trans e5, by omega, ?_, n7, hs, ?_⟩
  · simp only [reach, n1, n4]
  · exact (e7.trans e5).trans (n8.trans n6).symm

/-- Witness for C10: capacity 2; pushes 1, 2, 3, then `Get`, pushes 7, 8, 9,
then `Get`. -/
theorem get_resets_buffer_witness :
    (1 : Int) ≤ 2 ∧
    reach 2 [.push 1, .push 2, .push 3] = .ok { array := [2, 3], pos := 1, size := 2 } ∧
    ∃ s1 r1 r2 s2 r3 f sf rf,
      Get { array := [2, 3], pos := 1, size := 2 } = .ok (s1, r1) ∧
      calls r1 ([7, 8, 9].map Call.push) = .ok r2 ∧ Get r2 = .ok (s2, r3) ∧
      s2.elems r3.array = lastN (2 : Int).toNat [7, 8, 9] ∧
      s2.len = min [7, 8, (9 : Int)].length (2 : Int).toNat ∧
      reach 2 ([7, 8, 9].map Call.push) = .ok f ∧ Get f = .ok (sf, rf) ∧
      s2 = sf ∧ s2.elems r3.array = sf.elems rf.array :=
  ⟨by decide, by decide,
    get_resets_buffer 2 [.push 1, .push 2, .push 3] [7, 8, 9]
      { array := [2, 3], pos := 1, size := 2 } (by decide) (by decide)⟩

/-! ## The pipeline claims -/

/-- C6: `Run` chains the stages in list order. For every done signal, every
stage list and every source, `Run` returns normally with the left fold of the
stage list from `source`, every stage being called with the done
signal of the pipeline itself; with no stages it returns `source` itself. -/
theorem run_is_left_fold_of_stages {D C W : Type} (done : D) (stages : List (StageInt D C W))
    (source : C) (w : W) :
    (NewPipelineInt done stages).Run source w
        = .ok (stages.foldl (fun cw stage => stage done cw.1 cw.2) (source, w)) ∧
    (NewPipelineInt done ([] : List (StageInt D C W))).Run source w = .ok (source, w) := by
  constructor
  · unfold PipeLineInt.Run
    rw [Run_loop_spec _ _ 0 source w (by omega)]
    rfl
  · rfl

/-- C8: the forwarding test `data != 0 && data%3 == 0` holds exactly for the
nonzero integers that 3 divides: 0 is dropped, and the negative multiples -3 and
-9 are forwarded. -/
theorem special_filter_forwards_nonzero_multiples_of_three (v : Int) :
    (specialTest v = true ↔ v ≠ 0 ∧ (3 : Int) ∣ v) ∧
    specialTest 0 = false ∧ specialTest (-3) = true ∧ specialTest (-9) = true :=
  ⟨specialTest_iff v, by decide, by decide, by decide⟩

/-- C7: the pipeline `[negativeFilterStageInt, specialFilterStageInt]` fed a
finite list of integers, the done channel never being closed. `Run` wires the
two workers; along every schedule the values received at the output are an
initial part of the input values `v` with `v > 0` and `3 ∣ v` in their original
order; once no rendezvous is possible they are exactly those values; a schedule
has at most `3 * input.length` rendezvous, and every schedule extends to one
after which nothing is left to do. -/
theorem filters_forward_positive_multiples_of_three (input : List Int) :
    ∃ cfg0, launch input = .ok cfg0 ∧
      ∀ sched cfg, exec cfg0 sched = some cfg →
        cfg.received <+: input.filter (fun v => decide (0 < v ∧ (3 : Int) ∣ v)) ∧
        (Quiescent cfg →
          cfg.received = input.filter (fun v => decide (0 < v ∧ (3 : Int) ∣ v))) ∧
        sched.length ≤ 3 * input.length ∧
        ∃ more fin, exec cfg0 (sched ++ more) = some fin ∧ Quiescent fin ∧
          fin.received = input.filter (fun v => decide (0 < v ∧ (3 : Int) ∣ v)) := by
  refine ⟨net input .outer .outer [], launch_eq input, ?_⟩
  have hfinal : ∀ (sched : List Nat) (cfg : Config),
      exec (net input .outer .outer []) sched = some cfg → Quiescent cfg →
      cfg.received = input.filter (fun v => decide (0 < v ∧ (3 : Int) ∣ v)) := by
    intro sched cfg h hq
    obtain ⟨inp1, q1, q2, out1, e1, e2, _⟩ := exec_net sched input .outer .outer [] cfg h
    subst e1
    obtain ⟨rfl, rfl, rfl⟩ := (quiescent_net_iff _ _ _ _).mp hq
    rw [← filter_filter_tests]
    simpa [total, held_outer, net] using e2
  intro sched cfg h
  obtain ⟨inp1, q1, q2, out1, e1, e2, e3⟩ := exec_net sched input .outer .outer [] cfg h
  refine ⟨?_, hfinal sched cfg h, ?_, ?_⟩
  · subst e1
    rw [← filter_filter_tests]
    have e4 : total input .outer .outer [] = (input.filter negativeTest).filter specialTest := by
      simp [total, held_outer]
    rw [← e4, ← e2]
    exact List.prefix_append _ _
  · have : work input .outer .outer = 3 * input.length := by
      simp [work, held_outer]
    omega
  · subst e1
    obtain ⟨more, fin, f1, f2⟩ := net_completes (work inp1 q1 q2) inp1 q1 q2 out1 (Nat.le_refl _)
    have f3 := exec_append _ _ sched more h
    refine ⟨more, fin, f3.trans f1, f2, hfinal (sched ++ more) fin (f3.trans f1) f2⟩

/-- Witness for C7: input `[-9, 9, -3]`; the schedule source, source, middle,
sink, source forwards only 9. -/
theorem filters_forward_positive_multiples_of_three_witness :
    ∃ cfg0 cfg, launch [-9, 9, -3] = .ok cfg0 ∧ exec cfg0 [0, 0, 2, 3, 0] = some cfg ∧
      cfg.received = [9] ∧
      [-9, 9, (-3 : Int)].filter (fun v => decide (0 < v ∧ (3 : Int) ∣ v)) = [9] := by
  obtain ⟨cfg0, h0, hall⟩ := filters_forward_positive_multiples_of_three [-9, 9, -3]
  have e0 : cfg0 = net [-9, 9, -3] .outer .outer [] := by
    rw [launch_eq] at h0
    cases h0
    rfl
  subst e0
  have hx : exec (net [-9, 9, -3] .outer .outer []) [0, 0, 2, 3, 0]
      = some (net [] .outer .outer [9]) := by decide
  have hq : Quiescent (net [] .outer .outer [9]) :=
    (quiescent_net_iff _ _ _ _).mpr ⟨rfl, rfl, rfl⟩
  have hr := (hall _ _ hx).2.1 hq
  exact ⟨_, _, h0, hx, hr.trans (by decide), by decide⟩

/-- C9 as stated fails: a worker can receive and send after done has been
closed. In the pipeline of the two filters fed `[3]`, the first worker receives
3, the source returns and closes done, and then the first worker still sends 3,
the second worker still receives it and still sends it on. Taken one at a time,
a filter worker at its outer `select` with done closed can take the receive and
then the send; the collector can receive and push; the flusher can take the
timer case and send. -/
theorem workers_communicate_after_done_is_closed :
    launch [3] = .ok (net [3] .outer .outer []) ∧
    Sys.exec { cfg := net [3] .outer .outer [], closed := false }
        [.rendezvous 0, .closeDone]
      = some { cfg := net [] (.inner 3) .outer [], closed := true } ∧
    Sys.exec { cfg := net [] (.inner 3) .outer [], closed := true }
        [.rendezvous 2, .rendezvous 3]
      = some { cfg := net [] .outer .outer [3], closed := true } ∧
    filterWorker .special true (.running .outer) (.recv 3) = some (.running (.inner 3)) ∧
    filterWorker .special true (.running (.inner 3)) .send = some (.running .outer) ∧
    collectorWorker true
        ({ array := [0, 0, 0, 0, 0, 0, 0, 0, 0, 0], pos := -1, size := bufferSize },
          .running ()) (.recv 6)
      = .ok (some ({ array := [6, 0, 0, 0, 0, 0, 0, 0, 0, 0], pos := 0, size := bufferSize },
          .running ())) ∧
    flusherWorker true
        ({ array := [6, 0, 0, 0, 0, 0, 0, 0, 0, 0], pos := 0, size := bufferSize },
          .running .outer) .timer
      = .ok (some ({ array := [6, 0, 0, 0, 0, 0, 0, 0, 0, 0], pos := -1, size := bufferSize },
          .running (.inner (.view 1) 0 6))) ∧
    flusherWorker true
        ({ array := [6, 0, 0, 0, 0, 0, 0, 0, 0, 0], pos := -1, size := bufferSize },
          .running (.inner (.view 1) 0 6)) .send
      = .ok (some ({ array := [6, 0, 0, 0, 0, 0, 0, 0, 0, 0], pos := -1, size := bufferSize },
          .running .outer)) ∧
    ¬ (∀ (k : FilterKind) (w w1 : Life FilterPC) (arm : Arm),
        filterWorker k true w arm = some w1 → arm = Arm.done) := by
  refine ⟨rfl, by decide, by decide, by decide, by decide, by decide, by decide, by decide, ?_⟩
  intro h
  have h1 := h .special (.running .outer) (.running (.inner 3)) (.recv 3) (by decide)
  cases h1

/-- C9 (amended): for each of the four workers (a filter worker of either kind,
the collector, the flusher) and each program point at which it can be blocked:
once done is closed the case `<-done` can be taken and makes the worker return,
leaving the buffer as it is; while done is open that case cannot be taken; and
a worker that has returned can take no case at all, so it performs no further
receive and no further send. In a running pipeline likewise: no goroutine
returns while done is open, and once done is closed each goroutine can return,
after which it is no longer among the goroutines. -/
theorem done_case_is_enabled_and_final (k : FilterKind) (pc : FilterPC) (fpc : FlusherPC)
    (buffer : RingIntBuffer) (closed : Bool) (arm : Arm) (cfg : Config) (i : Nat) :
    (filterWorker k true (.running pc) .done = some .returned ∧
      filterWorker k false (.running pc) .done = none ∧
      filterWorker k closed .returned arm = none) ∧
    (collectorWorker true (buffer, .running ()) .done = .ok (some (buffer, .returned)) ∧
      collectorWorker false (buffer, .running ()) .done = .ok none ∧
      collectorWorker closed (buffer, .returned) arm = .ok none) ∧
    (flusherWorker true (buffer, .running fpc) .done = .ok (some (buffer, .returned)) ∧
      flusherWorker false (buffer, .running fpc) .done = .ok none ∧
      flusherWorker closed (buffer, .returned) arm = .ok none) ∧
    (Sys.step { cfg := cfg, closed := false } (.cancel i) = none ∧
      (i < cfg.procs.length →
        Sys.step { cfg := cfg, closed := true } (.cancel i)
          = some { cfg := { cfg with procs := cfg.procs.eraseIdx i }, closed := true })) := by
  refine ⟨⟨?_, ?_, ?_⟩, ⟨?_, ?_, ?_⟩, ⟨?_, ?_, ?_⟩, ⟨?_, ?_⟩⟩
  · cases pc <;> rfl
  · cases pc <;> rfl
  · cases arm <;> rfl
  · rfl
  · rfl
  · cases arm <;> rfl
  · cases fpc <;> rfl
  · cases fpc <;> rfl
  · cases arm <;> rfl
  · simp [Sys.step]
  · intro hi
    simp [Sys.step, hi]

/-- Witness for C9 (amended): the two-filter pipeline with done closed while the
first worker holds 3; the first worker takes `case <-done` and is gone, and the
worker that is left can no longer receive on channel 2. -/
theorem done_case_is_enabled_and_final_witness :
    Sys.exec { cfg := net [] (.inner 3) .outer [], closed := true } [.cancel 0]
      = some { cfg := { pending := [], source := 0, sink := 3,
                        procs := [{ kind := .special, done := 1, c := 2, out := 3,
                                    pc := .outer }],
                        received := [] },
               closed := true } ∧
    Sys.exec { cfg := net [] (.inner 3) .outer [], closed := true }
        [.cancel 0, .rendezvous 2] = none ∧
    Sys.step { cfg := net [] (.inner 3) .outer [], closed := true } (.cancel 0)
      = some { cfg := { net [] (.inner 3) .outer [] with
                        procs := (net [] (.inner 3) .outer []).procs.eraseIdx 0 },
               closed := true } :=
  ⟨by decide, by decide,
    (done_case_is_enabled_and_final .negative .outer .outer
      { array := [], pos := -1, size := 0 } true .done (net [] (.inner 3) .outer []) 0).2.2.2.2
      (by decide)⟩

end Pipeline
